import Mathlib

/-!
Verification development for the Smart-ResumeParser repository.

The definitions below are a shallow embedding of the Python sources:
  * `src/recommendation_system.py` : similarity_score, match_skills,
    match_candidates, rank_candidates;
  * `src/resume_parser.py`         : calculate_total_experience, the
    experience-duration computation, extract_information;
  * `src/models.py`                : the record classes.

Modelling conventions: Python `str` becomes `String` (lower-casing is the
ASCII `Char.toLower`, all inputs of interest are ASCII); Python `float`
becomes `ℚ` (exact arithmetic model of the scores); Python dicts iterated
in insertion order become association lists; Python `None` becomes
`Option.none`.
-/

/-! ### Strings: Python lower-casing and substring test -/

/-- Model of Python `s.lower()` viewed as a character list (`str` is a
sequence of characters; ASCII lower-casing). -/
def pyLower (s : String) : List Char := s.data.map Char.toLower

/-- Model of the Python substring test `needle in hay`.  The empty needle is
contained in every string, as in Python. -/
def py_in (needle hay : List Char) : Bool :=
  (List.range (hay.length + 1)).any fun i => (hay.drop i).take needle.length == needle

/-! ### difflib.SequenceMatcher (autojunk, isjunk=None) — used by similarity_score

`similarity_score` in `recommendation_system.py` line 18 returns
`SequenceMatcher(None, a.lower(), b.lower()).ratio()`.  We embed CPython's
difflib algorithm: `b2j` maps each character of `b` to its (ascending)
positions, dropping "popular" characters when `len(b) >= 200` (autojunk);
`find_longest_match` does the j2len dynamic programming and then extends the
best block over equal characters (with `isjunk=None` the junk set is empty,
so the junk-extension loops are no-ops and the final extension loops extend
over any equal characters); the matching-blocks recursion sums block sizes;
the score is `2*M/T` (`1` when both strings are empty). -/

/-- Positions (ascending) at which character `c` occurs in `b`
(difflib's `b2j` before autojunk filtering). -/
def b2jAll (b : List Char) (c : Char) : List Nat :=
  (b.enum.filter fun p => p.2 == c).map fun p => p.1

/-- difflib autojunk: with `isjunk=None`, a character is "popular" when
`len(b) >= 200` and it occurs more than `len(b) // 100 + 1` times. -/
def isPopular (b : List Char) (c : Char) : Bool :=
  decide (200 ≤ b.length) && decide (b.length / 100 + 1 < b.count c)

/-- difflib's `b2j.get(a[i], [])` after popular characters were deleted. -/
def b2jGet (b : List Char) (c : Char) : List Nat :=
  if isPopular b c then [] else b2jAll b c

/-- Inner `for j in b2j.get(a[i], [])` loop of `find_longest_match`:
`j < blo` is `continue`, `j >= bhi` is `break`; otherwise
`k = newj2len[j] = j2len.get(j-1, 0) + 1` and the running best block is
replaced when `k > bestsize`.  `j2len` maps are total functions defaulting
to `0` (the dict's `.get` default). -/
def flmInner (blo bhi : Nat) (j2len : Nat → Nat) (i : Nat) :
    List Nat → (Nat → Nat) → Nat × Nat × Nat → (Nat → Nat) × (Nat × Nat × Nat)
  | [], newj2len, best => (newj2len, best)
  | j :: js, newj2len, best =>
    if j < blo then flmInner blo bhi j2len i js newj2len best
    else if bhi ≤ j then (newj2len, best)
    else
      let k := (if j = 0 then 0 else j2len (j - 1)) + 1
      let newj2len' : Nat → Nat := fun j' => if j' = j then k else newj2len j'
      let best' := if best.2.2 < k then (i + 1 - k, j + 1 - k, k) else best
      flmInner blo bhi j2len i js newj2len' best'

/-- Outer `for i in range(alo, ahi)` loop of `find_longest_match`. -/
def flmOuter (a b : List Char) (blo bhi : Nat) :
    List Nat → (Nat → Nat) → Nat × Nat × Nat → Nat × Nat × Nat
  | [], _, best => best
  | i :: is, j2len, best =>
    let step := flmInner blo bhi j2len i (b2jGet b (a.getD i ' ')) (fun _ => 0) best
    flmOuter a b blo bhi is step.1 step.2

/-- `while besti > alo and bestj > blo and a[besti-1] == b[bestj-1]` block
extension (the junk set is empty, so the non-junk extension loop extends
over any equal characters).  Fuel bounds the iteration count; it is called
with fuel `besti`, which the loop can never exhaust. -/
def flmExtendLeft (a b : List Char) (alo blo : Nat) :
    Nat → Nat × Nat × Nat → Nat × Nat × Nat
  | 0, best => best
  | fuel + 1, (bi, bj, bs) =>
    if alo < bi ∧ blo < bj ∧ a.getD (bi - 1) ' ' = b.getD (bj - 1) ' ' then
      flmExtendLeft a b alo blo fuel (bi - 1, bj - 1, bs + 1)
    else (bi, bj, bs)

/-- `while besti+bestsize < ahi and bestj+bestsize < bhi and
a[besti+bestsize] == b[bestj+bestsize]` block extension. -/
def flmExtendRight (a b : List Char) (ahi bhi : Nat) :
    Nat → Nat × Nat × Nat → Nat × Nat × Nat
  | 0, best => best
  | fuel + 1, (bi, bj, bs) =>
    if bi + bs < ahi ∧ bj + bs < bhi ∧ a.getD (bi + bs) ' ' = b.getD (bj + bs) ' ' then
      flmExtendRight a b ahi bhi fuel (bi, bj, bs + 1)
    else (bi, bj, bs)

/-- difflib `SequenceMatcher.find_longest_match(alo, ahi, blo, bhi)`,
returning `(besti, bestj, bestsize)`. -/
def find_longest_match (a b : List Char) (alo ahi blo bhi : Nat) : Nat × Nat × Nat :=
  let best := flmOuter a b blo bhi (List.range' alo (ahi - alo)) (fun _ => 0) (alo, blo, 0)
  let best := flmExtendLeft a b alo blo best.1 best
  flmExtendRight a b ahi bhi ahi best

/-- Total size of all matching blocks found by `get_matching_blocks`'s
divide-and-conquer on `find_longest_match` (the sum of block sizes is all
`ratio` needs; adjacent-block merging does not change it).  Fuel bounds the
recursion depth; each recursive call strictly shrinks the interval pair, so
the initial fuel `len a + len b + 1` is never exhausted. -/
def matchingBlocksTotal (a b : List Char) :
    Nat → Nat → Nat → Nat → Nat → Nat
  | 0, _, _, _, _ => 0
  | fuel + 1, alo, ahi, blo, bhi =>
    let best := find_longest_match a b alo ahi blo bhi
    let i := best.1
    let j := best.2.1
    let k := best.2.2
    if k = 0 then 0
    else
      k + matchingBlocksTotal a b fuel alo i blo j
        + matchingBlocksTotal a b fuel (i + k) ahi (j + k) bhi

/-- difflib `SequenceMatcher.ratio()` over two character lists:
`2*M/T` where `M` is the total matched size and `T` the total length
(`1.0` when `T = 0`). -/
def sequenceMatcherScore (a b : List Char) : ℚ :=
  let m := matchingBlocksTotal a b (a.length + b.length + 1) 0 a.length 0 b.length
  let t := a.length + b.length
  if t ≠ 0 then 2 * (m : ℚ) / (t : ℚ) else 1

/-- `similarity_score(a, b)` from `recommendation_system.py` lines 8-18:
`SequenceMatcher(None, a.lower(), b.lower()).ratio()`. -/
def similarity_score (a b : String) : ℚ :=
  sequenceMatcherScore (pyLower a) (pyLower b)

/-! ### match_skills (`recommendation_system.py` lines 20-45) -/

/-- The fuzzy-match condition of `match_skills` lines 37-39:
`req_skill.lower() in candidate_skill.lower() or candidate_skill.lower() in
req_skill.lower() or similarity_score(candidate_skill, req_skill) >=
threshold`. -/
def skill_condition (candidate_skill req_skill : String) (threshold : ℚ) : Bool :=
  py_in (pyLower req_skill) (pyLower candidate_skill)
  || py_in (pyLower candidate_skill) (pyLower req_skill)
  || decide (threshold ≤ similarity_score candidate_skill req_skill)

/-- Inner `for req_skill in required_skills` loop of `match_skills`: on the
first required skill satisfying the condition, move it from `missing` to the
end of `matched` when it is still missing, and `break`; otherwise continue. -/
def skillPass (candidate_skill : String) (threshold : ℚ) :
    List String → List String × List String → List String × List String
  | [], acc => acc
  | req_skill :: rest, (matched, missing) =>
    if skill_condition candidate_skill req_skill threshold then
      if missing.contains req_skill then
        (matched ++ [req_skill], missing.erase req_skill)
      else (matched, missing)
    else skillPass candidate_skill threshold rest (matched, missing)

/-- Outer `for candidate_skill in candidate_skills` loop of `match_skills`. -/
def matchSkillsAux (required_skills : List String) (threshold : ℚ) :
    List String → List String × List String → List String × List String
  | [], acc => acc
  | candidate_skill :: rest, acc =>
    matchSkillsAux required_skills threshold rest
      (skillPass candidate_skill threshold required_skills acc)

/-- `match_skills(candidate_skills, required_skills, threshold)` from
`recommendation_system.py` lines 20-45; starts with `matched = []` and
`missing = required_skills.copy()` and returns `(matched, missing)`. -/
def match_skills (candidate_skills required_skills : List String) (threshold : ℚ) :
    List String × List String :=
  matchSkillsAux required_skills threshold candidate_skills ([], required_skills)

example :
    match_skills ["python"] ["python", "java"] (4/5) = (["python"], ["java"]) := by decide

example :
    match_skills ["a", "ab"] ["a", "b"] (4/5) = (["a"], ["b"]) := by decide

/-! ### Data model (`src/models.py`) -/

/-- The `contact` dictionary initialized in `ResumeInfo.__init__`
(`models.py` lines 4-9). -/
structure Contact where
  email : String := ""
  phone : String := ""
  linkedin : String := ""
  address : String := ""
deriving DecidableEq, Repr

/-- `Education` (`models.py` lines 16-23).  Dates are year/month/day
triples as produced by dateutil parsing; `none` models Python `None`. -/
structure PyDate where
  year : Int
  month : Int
  day : Int
deriving DecidableEq, Repr

structure Education where
  degree : String := ""
  institution : String := ""
  start_date : Option PyDate := none
  end_date : Option PyDate := none
  gpa : String := ""
  field_of_study : String := ""
deriving DecidableEq, Repr

/-- `Experience` (`models.py` lines 25-32). -/
structure Experience where
  title : String := ""
  company : String := ""
  start_date : Option PyDate := none
  end_date : Option PyDate := none
  description : String := ""
  duration_years : ℚ := 0
deriving DecidableEq, Repr

/-- `ResumeInfo` (`models.py` lines 1-14). -/
structure ResumeInfo where
  name : String := ""
  contact : Contact := {}
  skills : List String := []
  education : List Education := []
  experience : List Experience := []
  total_experience_years : ℚ := 0
  raw_text : String := ""
deriving DecidableEq, Repr

/-- The candidate-match dictionary built in `match_candidates`
(`recommendation_system.py` lines 90-98).  `rank` models the `'rank'` key
that `rank_candidates` later adds to the dictionary (`none` = key absent). -/
structure CandidateMatch where
  resume_id : String
  name : String
  skills : List String
  total_experience : ℚ
  matched_skills : List String
  missing_skills : List String
  match_score : ℚ
  rank : Option Nat := none
deriving DecidableEq, Repr

/-! ### match_candidates (`recommendation_system.py` lines 47-101) -/

/-- The deduplication key of line 65:
`resume_info.contact.get("email", "").lower() or resume_info.name.lower()`
(Python `or` falls through to the name when the lowered email is empty). -/
def candidateKey (info : ResumeInfo) : List Char :=
  if pyLower info.contact.email = [] then pyLower info.name else pyLower info.contact.email

/-- The candidate-match record built for one surviving resume
(`recommendation_system.py` lines 76-98): skill matching with the default
threshold `0.8`, `skill_match_score = len(matched)/len(required)` (`1.0`
when no skills are required), `experience_score = min(1.0,
(total-min)/5.0)` when `min_experience > 0` else `0.5`, and
`match_score = skill_score*0.7 + experience_score*0.3`. -/
def candidate_match (resume_id : String) (info : ResumeInfo)
    (required_skills : List String) (min_experience : ℚ) : CandidateMatch :=
  let ms := match_skills info.skills required_skills (4/5)
  let skill_match_score : ℚ :=
    if required_skills = [] then 1 else (ms.1.length : ℚ) / (required_skills.length : ℚ)
  let experience_score : ℚ :=
    if 0 < min_experience then
      min 1 ((info.total_experience_years - min_experience) / 5)
    else 1/2
  { resume_id := resume_id
    name := info.name
    skills := info.skills
    total_experience := info.total_experience_years
    matched_skills := ms.1
    missing_skills := ms.2
    match_score := skill_match_score * (7/10) + experience_score * (3/10) }

/-- The `for resume_id, resume_data in resumes_data.items()` loop of
`match_candidates`, carrying the `seen_keys` set: skip duplicates by key,
skip insufficient experience, skip zero matched skills when skills are
required, otherwise append the candidate-match record. -/
def matchLoop (required_skills : List String) (min_experience : ℚ) :
    List (List Char) → List (String × ResumeInfo) → List CandidateMatch
  | _, [] => []
  | seen_keys, (resume_id, info) :: rest =>
    let key := candidateKey info
    if key ∈ seen_keys then matchLoop required_skills min_experience seen_keys rest
    else if info.total_experience_years < min_experience then
      matchLoop required_skills min_experience (key :: seen_keys) rest
    else if (match_skills info.skills required_skills (4/5)).1.length = 0
        ∧ required_skills ≠ [] then
      matchLoop required_skills min_experience (key :: seen_keys) rest
    else
      candidate_match resume_id info required_skills min_experience
        :: matchLoop required_skills min_experience (key :: seen_keys) rest

/-- `match_candidates(resumes_data, required_skills, min_experience)` from
`recommendation_system.py` lines 47-101.  `resumes_data` is the parsed-resume
dictionary in insertion order; each value's `['info']` field is the
`ResumeInfo`. -/
def match_candidates (resumes_data : List (String × ResumeInfo))
    (required_skills : List String) (min_experience : ℚ) : List CandidateMatch :=
  matchLoop required_skills min_experience [] resumes_data

/-! ### rank_candidates (`recommendation_system.py` lines 103-117) -/

/-- Stable insert for descending sort by `match_score`: the inserted
element precedes every later element whose score is not larger.  Python's
`sorted(..., key=lambda x: x['match_score'], reverse=True)` is specified as
a stable descending sort; this insertion sort produces exactly that
(unique) stable descending permutation. -/
def insertDesc (c : CandidateMatch) : List CandidateMatch → List CandidateMatch
  | [] => [c]
  | d :: ds => if d.match_score ≤ c.match_score then c :: d :: ds else d :: insertDesc c ds

/-- Stable descending sort by `match_score`, modelling
`sorted(candidates, key=lambda x: x['match_score'], reverse=True)`. -/
def sortDesc : List CandidateMatch → List CandidateMatch
  | [] => []
  | c :: cs => insertDesc c (sortDesc cs)

/-- The `for i, candidate in enumerate(sorted_candidates): candidate['rank']
= i + 1` loop (started at rank `1`). -/
def assignRanks : Nat → List CandidateMatch → List CandidateMatch
  | _, [] => []
  | i, c :: cs => { c with rank := some i } :: assignRanks (i + 1) cs

/-- `rank_candidates(candidates, required_skills)` from
`recommendation_system.py` lines 103-117 (the `required_skills` argument is
unused by the function, as in the source). -/
def rank_candidates (candidates : List CandidateMatch)
    (required_skills : List String) : List CandidateMatch :=
  assignRanks 1 (sortDesc candidates)

/-- A candidate-match record with its `rank` key forgotten; used to compare
ranked output against unranked input. -/
def eraseRank (c : CandidateMatch) : CandidateMatch := { c with rank := none }

/-! ### resume_parser.py: total experience and the Structurer -/

/-- The month difference that dateutil's `relativedelta(d1, d2)` normalizes
into years and months.  Resume date ranges are parsed by
`dateutil.parser.parse` with the same default for missing components, so
both endpoints of a range of bare month/year dates carry the same
day-of-month; for such equal-day endpoints relativedelta performs no
day-overshoot adjustment and its (years, months) are exactly this total
split by truncating division. -/
def relativedeltaMonthsTotal (d1 d2 : PyDate) : Int :=
  (d1.year - d2.year) * 12 + (d1.month - d2.month)

/-- `relativedelta(d1, d2).years` for equal-day endpoints (truncating
division toward zero, as in relativedelta's normalization). -/
def relativedeltaYears (d1 d2 : PyDate) : Int :=
  (relativedeltaMonthsTotal d1 d2).tdiv 12

/-- `relativedelta(d1, d2).months` for equal-day endpoints. -/
def relativedeltaMonths (d1 d2 : PyDate) : Int :=
  relativedeltaMonthsTotal d1 d2 - 12 * relativedeltaYears d1 d2

/-- `exp.duration_years = delta.years + (delta.months / 12)` with
`delta = relativedelta(exp.end_date, exp.start_date)`
(`resume_parser.py` lines 417-420), for equal-day endpoints. -/
def duration_from_dates (start_date end_date : PyDate) : ℚ :=
  (relativedeltaYears end_date start_date : ℚ)
    + (relativedeltaMonths end_date start_date : ℚ) / 12

/-- `calculate_total_experience(experience_list)` from `resume_parser.py`
lines 436-441: `0.0` for an empty list, else the sum of `duration_years`. -/
def calculate_total_experience (experience_list : List Experience) : ℚ :=
  if experience_list = [] then 0
  else (experience_list.map fun e => e.duration_years).sum

/-- `extract_information(text)` from `resume_parser.py` lines 72-112.
`text` is `Option String` (`None` or the extracted text); the guard
`if not text: return None` rejects `None` and the empty string.  The body
(lines 85-108: the spaCy parse and the name/contact/skills/education/
experience sub-extractors populating a `ResumeInfo`) depends on the
external NLP engine and is abstracted as `extraction_body`, whose
`Except.error` outcome models an unhandled exception reaching the
`try/except` of lines 85-112 and whose `Except.ok` outcome is the populated
record returned on line 108. -/
def extract_information (text : Option String)
    (extraction_body : String → Except Unit ResumeInfo) : Option ResumeInfo :=
  match text with
  | none => none
  | some t =>
    if t = "" then none
    else
      match extraction_body t with
      | Except.error _ => none
      | Except.ok info => some info

/-! ### Concrete records for the spec scenarios -/

/-- Spec Scenario B candidate: skills `{"python"}` (no experience needed,
`minExperience = 0`). -/
def scenarioB_info : ResumeInfo :=
  { name := "Scenario B Candidate"
    contact := { email := "b@example.com" }
    skills := ["python"] }

/-- Spec Scenario C candidate: `totalExperience = 1.0` year. -/
def scenarioC_info : ResumeInfo :=
  { name := "Scenario C Candidate"
    total_experience_years := 1 }

/-- Concrete candidate record used to instantiate universally quantified
theorems: one skill, five years of experience. -/
def witnessInfo : ResumeInfo :=
  { name := "Witness Candidate"
    skills := ["python"]
    total_experience_years := 5 }

/-- Concrete candidate record for duplicate-key instantiations. -/
def dupInfo : ResumeInfo :=
  { name := "Duplicate Candidate"
    total_experience_years := 2 }

/-! ### Lemmas about match_skills -/

/-- One inner pass moves at most one element from `missing` to `matched`,
so the concatenation of the two lists is preserved up to permutation. -/
theorem skillPass_append_perm (candidate_skill : String) (threshold : ℚ) :
    ∀ (req : List String) (acc : List String × List String),
      ((skillPass candidate_skill threshold req acc).1
        ++ (skillPass candidate_skill threshold req acc).2).Perm (acc.1 ++ acc.2) := by
  intro req
  induction req with
  | nil => intro acc; exact List.Perm.refl _
  | cons r rest ih =>
    intro acc
    obtain ⟨m, g⟩ := acc
    show ((skillPass candidate_skill threshold (r :: rest) (m, g)).1
        ++ (skillPass candidate_skill threshold (r :: rest) (m, g)).2).Perm (m ++ g)
    rw [skillPass]
    by_cases hc : skill_condition candidate_skill r threshold
    · simp only [hc, if_true]
      by_cases hm : g.contains r
      · simp only [hm, if_true]
        have hrg : r ∈ g := List.elem_iff.mp hm
        have : (m ++ [r] ++ g.erase r).Perm (m ++ (r :: g.erase r)) := by
          rw [List.append_assoc]
          exact List.Perm.refl _
        exact this.trans (List.Perm.append_left m (List.perm_cons_erase hrg).symm)
      · simp only [hm, if_false]
        exact List.Perm.refl _
    · simp only [hc, if_false]
      exact ih (m, g)

/-- The outer loop preserves the concatenation up to permutation. -/
theorem matchSkillsAux_append_perm (required_skills : List String) (threshold : ℚ) :
    ∀ (cl : List String) (acc : List String × List String),
      ((matchSkillsAux required_skills threshold cl acc).1
        ++ (matchSkillsAux required_skills threshold cl acc).2).Perm (acc.1 ++ acc.2) := by
  intro cl
  induction cl with
  | nil => intro acc; exact List.Perm.refl _
  | cons c rest ih =>
    intro acc
    rw [matchSkillsAux]
    exact (ih _).trans (skillPass_append_perm c threshold required_skills acc)

/-- `matched ++ missing` is a permutation of the required-skill list. -/
theorem match_skills_append_perm (candidate_skills required_skills : List String)
    (threshold : ℚ) :
    ((match_skills candidate_skills required_skills threshold).1
      ++ (match_skills candidate_skills required_skills threshold).2).Perm required_skills :=
  matchSkillsAux_append_perm required_skills threshold candidate_skills ([], required_skills)

/-- A skill entering `matched` during one inner pass satisfies the fuzzy
condition against the candidate skill of that pass. -/
theorem skillPass_matched_cond (candidate_skill : String) (threshold : ℚ) :
    ∀ (req : List String) (acc : List String × List String) (r : String),
      r ∈ (skillPass candidate_skill threshold req acc).1 →
      r ∈ acc.1 ∨ skill_condition candidate_skill r threshold = true := by
  intro req
  induction req with
  | nil => intro acc r h; exact Or.inl h
  | cons s rest ih =>
    intro acc r h
    obtain ⟨m, g⟩ := acc
    rw [skillPass] at h
    by_cases hc : skill_condition candidate_skill s threshold
    · simp only [hc, if_true] at h
      by_cases hm : g.contains s
      · simp only [hm, if_true] at h
        rcases List.mem_append.mp h with h' | h'
        · exact Or.inl h'
        · have : r = s := List.mem_singleton.mp h'
          subst this
          exact Or.inr hc
      · simp only [hm, if_false] at h
        exact Or.inl h
    · simp only [hc, if_false] at h
      exact ih (m, g) r h

/-- A skill in the final `matched` list satisfies the fuzzy condition
against some candidate skill. -/
theorem matchSkillsAux_matched_cond (required_skills : List String) (threshold : ℚ) :
    ∀ (cl : List String) (acc : List String × List String) (r : String),
      r ∈ (matchSkillsAux required_skills threshold cl acc).1 →
      r ∈ acc.1 ∨ ∃ c ∈ cl, skill_condition c r threshold = true := by
  intro cl
  induction cl with
  | nil => intro acc r h; exact Or.inl h
  | cons c rest ih =>
    intro acc r h
    rw [matchSkillsAux] at h
    rcases ih _ r h with h' | ⟨c', hc', hcond⟩
    · rcases skillPass_matched_cond c threshold required_skills acc r h' with h'' | h''
      · exact Or.inl h''
      · exact Or.inr ⟨c, List.mem_cons_self c rest, h''⟩
    · exact Or.inr ⟨c', List.mem_cons_of_mem c hc', hcond⟩

/-- Every skill in `matched` was matched by some candidate skill via the
fuzzy condition. -/
theorem match_skills_matched_cond (candidate_skills required_skills : List String)
    (threshold : ℚ) (r : String)
    (h : r ∈ (match_skills candidate_skills required_skills threshold).1) :
    ∃ c ∈ candidate_skills, skill_condition c r threshold = true := by
  rcases matchSkillsAux_matched_cond required_skills threshold candidate_skills
      ([], required_skills) r h with h' | h'
  · exact absurd h' (List.not_mem_nil r)
  · exact h'

/-! ### Lemmas about match_candidates -/

@[simp] theorem candidate_match_resume_id (resume_id : String) (info : ResumeInfo)
    (req : List String) (me : ℚ) :
    (candidate_match resume_id info req me).resume_id = resume_id := rfl

@[simp] theorem candidate_match_matched_skills (resume_id : String) (info : ResumeInfo)
    (req : List String) (me : ℚ) :
    (candidate_match resume_id info req me).matched_skills
      = (match_skills info.skills req (4/5)).1 := rfl

@[simp] theorem candidate_match_missing_skills (resume_id : String) (info : ResumeInfo)
    (req : List String) (me : ℚ) :
    (candidate_match resume_id info req me).missing_skills
      = (match_skills info.skills req (4/5)).2 := rfl

@[simp] theorem candidate_match_total_experience (resume_id : String) (info : ResumeInfo)
    (req : List String) (me : ℚ) :
    (candidate_match resume_id info req me).total_experience
      = info.total_experience_years := rfl

@[simp] theorem candidate_match_match_score (resume_id : String) (info : ResumeInfo)
    (req : List String) (me : ℚ) :
    (candidate_match resume_id info req me).match_score
      = (if req = [] then 1
          else ((match_skills info.skills req (4/5)).1.length : ℚ) / (req.length : ℚ)) * (7/10)
        + (if 0 < me then min 1 ((info.total_experience_years - me) / 5) else 1/2) * (3/10) :=
  rfl

/-- Every result of the matcher loop is the candidate-match record of some
input entry that passed the experience and skill filters. -/
theorem matchLoop_mem_spec (required_skills : List String) (min_experience : ℚ) :
    ∀ (entries : List (String × ResumeInfo)) (seen : List (List Char))
      (r : CandidateMatch),
      r ∈ matchLoop required_skills min_experience seen entries →
      ∃ p ∈ entries, r = candidate_match p.1 p.2 required_skills min_experience
        ∧ ¬(p.2.total_experience_years < min_experience)
        ∧ ¬((match_skills p.2.skills required_skills (4/5)).1.length = 0
            ∧ required_skills ≠ []) := by
  intro entries
  induction entries with
  | nil => intro seen r h; exact absurd h (List.not_mem_nil r)
  | cons e rest ih =>
    intro seen r h
    obtain ⟨rid, info⟩ := e
    rw [matchLoop] at h
    by_cases h1 : candidateKey info ∈ seen
    · simp only [h1, if_true] at h
      obtain ⟨p, hp, hr⟩ := ih seen r h
      exact ⟨p, List.mem_cons_of_mem _ hp, hr⟩
    · simp only [h1, if_false] at h
      by_cases h2 : info.total_experience_years < min_experience
      · simp only [h2, if_true] at h
        obtain ⟨p, hp, hr⟩ := ih _ r h
        exact ⟨p, List.mem_cons_of_mem _ hp, hr⟩
      · simp only [h2, if_false] at h
        by_cases h3 : (match_skills info.skills required_skills (4/5)).1.length = 0
            ∧ required_skills ≠ []
        · rw [if_pos h3] at h
          obtain ⟨p, hp, hr⟩ := ih _ r h
          exact ⟨p, List.mem_cons_of_mem _ hp, hr⟩
        · rw [if_neg h3] at h
          rcases List.mem_cons.mp h with h' | h'
          · exact ⟨(rid, info), List.mem_cons_self _ _, h', h2, h3⟩
          · obtain ⟨p, hp, hr⟩ := ih _ r h'
            exact ⟨p, List.mem_cons_of_mem _ hp, hr⟩

/-- Every result of the matcher comes from an input entry, carries that
entry's id and fields, and passed the experience and skill filters. -/
theorem match_candidates_mem_spec (resumes_data : List (String × ResumeInfo))
    (required_skills : List String) (min_experience : ℚ) (r : CandidateMatch)
    (h : r ∈ match_candidates resumes_data required_skills min_experience) :
    ∃ p ∈ resumes_data, r = candidate_match p.1 p.2 required_skills min_experience
      ∧ ¬(p.2.total_experience_years < min_experience)
      ∧ ¬((match_skills p.2.skills required_skills (4/5)).1.length = 0
          ∧ required_skills ≠ []) :=
  matchLoop_mem_spec required_skills min_experience resumes_data [] r h

/-- An entry whose key was already seen is skipped wherever it occurs, and
skipping it changes nothing downstream. -/
theorem matchLoop_skip_of_seen (required_skills : List String) (min_experience : ℚ)
    (rid2 : String) (info2 : ResumeInfo) (ys : List (String × ResumeInfo)) :
    ∀ (xs : List (String × ResumeInfo)) (seen : List (List Char)),
      candidateKey info2 ∈ seen →
      matchLoop required_skills min_experience seen (xs ++ (rid2, info2) :: ys)
        = matchLoop required_skills min_experience seen (xs ++ ys) := by
  intro xs
  induction xs with
  | nil =>
    intro seen hseen
    simp only [List.nil_append]
    rw [matchLoop, if_pos hseen]
  | cons e rest ih =>
    intro seen hseen
    obtain ⟨rid, info⟩ := e
    simp only [List.cons_append]
    rw [matchLoop, matchLoop]
    by_cases h1 : candidateKey info ∈ seen
    · rw [if_pos h1, if_pos h1]
      exact ih seen hseen
    · rw [if_neg h1, if_neg h1]
      have hseen' : candidateKey info2 ∈ candidateKey info :: seen :=
        List.mem_cons_of_mem _ hseen
      by_cases h2 : info.total_experience_years < min_experience
      · rw [if_pos h2, if_pos h2]
        exact ih _ hseen'
      · rw [if_neg h2, if_neg h2]
        by_cases h3 : (match_skills info.skills required_skills (4/5)).1.length = 0
            ∧ required_skills ≠ []
        · rw [if_pos h3, if_pos h3]
          exact ih _ hseen'
        · rw [if_neg h3, if_neg h3, ih _ hseen']

/-- Dropping a later entry that duplicates an earlier entry's key leaves the
matcher's output unchanged: the duplicate contributes nothing. -/
theorem matchLoop_dup_drop (required_skills : List String) (min_experience : ℚ)
    (rid1 rid2 : String) (info1 info2 : ResumeInfo)
    (mid post : List (String × ResumeInfo))
    (hk : candidateKey info1 = candidateKey info2) :
    ∀ (pre : List (String × ResumeInfo)) (seen : List (List Char)),
      matchLoop required_skills min_experience seen
          (pre ++ (rid1, info1) :: (mid ++ (rid2, info2) :: post))
        = matchLoop required_skills min_experience seen
          (pre ++ (rid1, info1) :: (mid ++ post)) := by
  intro pre
  induction pre with
  | nil =>
    intro seen
    simp only [List.nil_append]
    rw [matchLoop, matchLoop]
    by_cases h1 : candidateKey info1 ∈ seen
    · rw [if_pos h1, if_pos h1]
      exact matchLoop_skip_of_seen _ _ _ _ _ mid seen (hk ▸ h1)
    · rw [if_neg h1, if_neg h1]
      have hseen' : candidateKey info2 ∈ candidateKey info1 :: seen := by
        rw [← hk]
        exact List.mem_cons_self _ _
      by_cases h2 : info1.total_experience_years < min_experience
      · rw [if_pos h2, if_pos h2]
        exact matchLoop_skip_of_seen _ _ _ _ _ mid _ hseen'
      · rw [if_neg h2, if_neg h2]
        by_cases h3 : (match_skills info1.skills required_skills (4/5)).1.length = 0
            ∧ required_skills ≠ []
        · rw [if_pos h3, if_pos h3]
          exact matchLoop_skip_of_seen _ _ _ _ _ mid _ hseen'
        · rw [if_neg h3, if_neg h3,
            matchLoop_skip_of_seen _ _ _ _ _ mid _ hseen']
  | cons e rest ih =>
    intro seen
    obtain ⟨rid, info⟩ := e
    simp only [List.cons_append]
    rw [matchLoop, matchLoop]
    by_cases h1 : candidateKey info ∈ seen
    · rw [if_pos h1, if_pos h1]
      exact ih seen
    · rw [if_neg h1, if_neg h1]
      by_cases h2 : info.total_experience_years < min_experience
      · rw [if_pos h2, if_pos h2]
        exact ih _
      · rw [if_neg h2, if_neg h2]
        by_cases h3 : (match_skills info.skills required_skills (4/5)).1.length = 0
            ∧ required_skills ≠ []
        · rw [if_pos h3, if_pos h3]
          exact ih _
        · rw [if_neg h3, if_neg h3, ih _]

/-- Characterization of which entry ids reach the matcher's output: an
entry (with an id not reused elsewhere) yields a result exactly when no
earlier entry shares its key, its key was not pre-seen, it meets the
experience floor, and it is not rejected for matching zero required
skills. -/
theorem matchLoop_id_mem_iff (required_skills : List String) (min_experience : ℚ)
    (rid : String) (info : ResumeInfo) (post : List (String × ResumeInfo))
    (hpost : rid ∉ post.map Prod.fst) :
    ∀ (pre : List (String × ResumeInfo)) (seen : List (List Char)),
      rid ∉ pre.map Prod.fst →
      ((∃ r ∈ matchLoop required_skills min_experience seen (pre ++ (rid, info) :: post),
          r.resume_id = rid)
        ↔ (candidateKey info ∉ seen
          ∧ (∀ e ∈ pre, candidateKey e.2 ≠ candidateKey info)
          ∧ ¬(info.total_experience_years < min_experience)
          ∧ ¬((match_skills info.skills required_skills (4/5)).1.length = 0
              ∧ required_skills ≠ []))) := by
  intro pre
  induction pre with
  | nil =>
    intro seen _
    simp only [List.nil_append]
    rw [matchLoop]
    have noPost : ∀ (s : List (List Char)),
        ¬(∃ r ∈ matchLoop required_skills min_experience s post, r.resume_id = rid) := by
      rintro s ⟨r, hr, hid⟩
      obtain ⟨p, hp, hreq, -⟩ := matchLoop_mem_spec _ _ post s r hr
      apply hpost
      have : p.1 = rid := by rw [← hid, hreq, candidate_match_resume_id]
      rw [← this]
      exact List.mem_map_of_mem Prod.fst hp
    by_cases h1 : candidateKey info ∈ seen
    · rw [if_pos h1]
      exact iff_of_false (noPost seen) (fun h => h.1 h1)
    · rw [if_neg h1]
      by_cases h2 : info.total_experience_years < min_experience
      · rw [if_pos h2]
        exact iff_of_false (noPost _) (fun h => h.2.2.1 h2)
      · rw [if_neg h2]
        by_cases h3 : (match_skills info.skills required_skills (4/5)).1.length = 0
            ∧ required_skills ≠ []
        · rw [if_pos h3]
          exact iff_of_false (noPost _) (fun h => h.2.2.2 h3)
        · rw [if_neg h3]
          refine iff_of_true ⟨candidate_match rid info required_skills min_experience,
            List.mem_cons_self _ _, rfl⟩ ⟨h1, ?_, h2, h3⟩
          intro e he
          exact absurd he (List.not_mem_nil e)
  | cons e rest ih =>
    intro seen hpre
    obtain ⟨ride, infoe⟩ := e
    rw [List.map_cons] at hpre
    have hne : ride ≠ rid := fun h => hpre (h ▸ List.mem_cons_self _ _)
    have hpre' : rid ∉ rest.map Prod.fst := fun h => hpre (List.mem_cons_of_mem _ h)
    simp only [List.cons_append]
    rw [matchLoop]
    by_cases h1 : candidateKey infoe ∈ seen
    · rw [if_pos h1, ih seen hpre']
      constructor
      · rintro ⟨ha, hb, hc⟩
        refine ⟨ha, List.forall_mem_cons.mpr ⟨?_, hb⟩, hc⟩
        intro heq
        exact ha (heq ▸ h1)
      · rintro ⟨ha, hb, hc⟩
        exact ⟨ha, (List.forall_mem_cons.mp hb).2, hc⟩
    · rw [if_neg h1]
      have keyConsIff : ∀ (C : Prop),
          ((candidateKey info ∉ candidateKey infoe :: seen
            ∧ (∀ e' ∈ rest, candidateKey e'.2 ≠ candidateKey info) ∧ C)
          ↔ (candidateKey info ∉ seen
            ∧ (∀ e' ∈ (ride, infoe) :: rest, candidateKey e'.2 ≠ candidateKey info) ∧ C)) := by
        intro C
        constructor
        · rintro ⟨ha, hb, hc⟩
          rw [List.mem_cons, not_or] at ha
          exact ⟨ha.2, List.forall_mem_cons.mpr ⟨fun h => ha.1 h.symm, hb⟩, hc⟩
        · rintro ⟨ha, hb, hc⟩
          have hb' := List.forall_mem_cons.mp hb
          refine ⟨?_, hb'.2, hc⟩
          rw [List.mem_cons, not_or]
          exact ⟨fun h => hb'.1 h.symm, ha⟩
      by_cases h2 : infoe.total_experience_years < min_experience
      · rw [if_pos h2, ih _ hpre']
        exact keyConsIff _
      · rw [if_neg h2]
        by_cases h3 : (match_skills infoe.skills required_skills (4/5)).1.length = 0
            ∧ required_skills ≠ []
        · rw [if_pos h3, ih _ hpre']
          exact keyConsIff _
        · rw [if_neg h3]
          have headDrop :
              (∃ r ∈ candidate_match ride infoe required_skills min_experience ::
                  matchLoop required_skills min_experience (candidateKey infoe :: seen)
                    (rest ++ (rid, info) :: post), r.resume_id = rid)
              ↔ (∃ r ∈ matchLoop required_skills min_experience (candidateKey infoe :: seen)
                    (rest ++ (rid, info) :: post), r.resume_id = rid) := by
            constructor
            · rintro ⟨r, hr, hid⟩
              rcases List.mem_cons.mp hr with h' | h'
              · exact absurd (by rw [h'] at hid; exact hid) hne
              · exact ⟨r, h', hid⟩
            · rintro ⟨r, hr, hid⟩
              exact ⟨r, List.mem_cons_of_mem _ hr, hid⟩
          rw [headDrop, ih _ hpre']
          exact keyConsIff _

/-! ### Lemmas about rank_candidates -/

theorem insertDesc_perm (c : CandidateMatch) :
    ∀ l : List CandidateMatch, (insertDesc c l).Perm (c :: l) := by
  intro l
  induction l with
  | nil => exact List.Perm.refl _
  | cons d ds ih =>
    rw [insertDesc]
    by_cases h : d.match_score ≤ c.match_score
    · rw [if_pos h]
    · rw [if_neg h]
      exact (List.Perm.cons d ih).trans (List.Perm.swap c d ds)

theorem sortDesc_perm : ∀ l : List CandidateMatch, (sortDesc l).Perm l := by
  intro l
  induction l with
  | nil => exact List.Perm.refl _
  | cons c cs ih =>
    rw [sortDesc]
    exact (insertDesc_perm c (sortDesc cs)).trans (List.Perm.cons c ih)

theorem insertDesc_pairwise (c : CandidateMatch) :
    ∀ l : List CandidateMatch,
      l.Pairwise (fun a b => b.match_score ≤ a.match_score) →
      (insertDesc c l).Pairwise (fun a b => b.match_score ≤ a.match_score) := by
  intro l
  induction l with
  | nil => intro _; exact List.pairwise_singleton _ c
  | cons d ds ih =>
    intro hp
    rw [insertDesc]
    rw [List.pairwise_cons] at hp
    by_cases h : d.match_score ≤ c.match_score
    · rw [if_pos h]
      rw [List.pairwise_cons]
      refine ⟨?_, List.pairwise_cons.mpr hp⟩
      intro x hx
      rcases List.mem_cons.mp hx with h' | h'
      · rw [h']; exact h
      · exact le_trans (hp.1 x h') h
    · rw [if_neg h]
      rw [List.pairwise_cons]
      refine ⟨?_, ih hp.2⟩
      intro x hx
      have hx' : x ∈ c :: ds := (insertDesc_perm c ds).mem_iff.mp hx
      rcases List.mem_cons.mp hx' with h' | h'
      · rw [h']; exact le_of_not_le h
      · exact hp.1 x h'

/-- The stable descending sort is sorted: scores never increase along the
output. -/
theorem sortDesc_pairwise :
    ∀ l : List CandidateMatch,
      (sortDesc l).Pairwise (fun a b => b.match_score ≤ a.match_score) := by
  intro l
  induction l with
  | nil => exact List.Pairwise.nil
  | cons c cs ih =>
    rw [sortDesc]
    exact insertDesc_pairwise c (sortDesc cs) ih

/-- Stability of the insert step, expressed through score-level filters:
elements of any fixed score keep their relative order. -/
theorem insertDesc_filter (c : CandidateMatch) (q : ℚ) :
    ∀ l : List CandidateMatch,
      (insertDesc c l).filter (fun x => x.match_score == q)
        = (c :: l).filter (fun x => x.match_score == q) := by
  intro l
  induction l with
  | nil => rfl
  | cons d ds ih =>
    rw [insertDesc]
    by_cases h : d.match_score ≤ c.match_score
    · rw [if_pos h]
    · rw [if_neg h]
      have key : (d :: insertDesc c ds).filter (fun x => x.match_score == q)
          = (d :: c :: ds).filter (fun x => x.match_score == q) := by
        simp only [List.filter_cons, ih]
      rw [key]
      by_cases hd : d.match_score = q
      · have hc : ¬(c.match_score = q) := fun hc => h (le_of_eq (hd.trans hc.symm))
        simp [List.filter_cons, hd, hc]
      · simp [List.filter_cons, hd]

/-- Stability of the stable descending sort: for any fixed score, the
sublist of elements carrying that score is unchanged. -/
theorem sortDesc_filter (q : ℚ) :
    ∀ l : List CandidateMatch,
      (sortDesc l).filter (fun x => x.match_score == q)
        = l.filter (fun x => x.match_score == q) := by
  intro l
  induction l with
  | nil => rfl
  | cons c cs ih =>
    rw [sortDesc, insertDesc_filter]
    simp only [List.filter_cons, ih]

theorem assignRanks_map_eraseRank :
    ∀ (i : Nat) (l : List CandidateMatch),
      (assignRanks i l).map eraseRank = l.map eraseRank := by
  intro i l
  induction l generalizing i with
  | nil => rfl
  | cons c cs ih =>
    rw [assignRanks, List.map_cons, List.map_cons, ih]
    rfl

theorem assignRanks_map_score :
    ∀ (i : Nat) (l : List CandidateMatch),
      (assignRanks i l).map (fun c => c.match_score) = l.map (fun c => c.match_score) := by
  intro i l
  induction l generalizing i with
  | nil => rfl
  | cons c cs ih =>
    rw [assignRanks, List.map_cons, List.map_cons, ih]

theorem assignRanks_map_rank :
    ∀ (i : Nat) (l : List CandidateMatch),
      (assignRanks i l).map (fun c => c.rank)
        = (List.range l.length).map (fun k => some (i + k)) := by
  intro i l
  induction l generalizing i with
  | nil => rfl
  | cons c cs ih =>
    rw [assignRanks, List.map_cons, ih (i + 1), List.length_cons,
      List.range_succ_eq_map, List.map_cons, List.map_map]
    congr 1
    apply List.map_congr_left
    intro a _
    simp only [Function.comp_apply, Option.some.injEq]
    omega

/-! ### Claim theorems -/

/-- C1: for every mapping of candidate records, every required-skill list
without duplicates and every minimum-experience value, every result
returned by the matcher has `matched_skills` and `missing_skills` disjoint,
with their union equal to the required skills as sets. -/
theorem claim_C1_matched_missing_partition
    (resumes_data : List (String × ResumeInfo)) (required_skills : List String)
    (min_experience : ℚ) (hnd : required_skills.Nodup) (r : CandidateMatch)
    (hr : r ∈ match_candidates resumes_data required_skills min_experience) :
    (∀ s ∈ r.matched_skills, s ∉ r.missing_skills)
    ∧ (∀ s, (s ∈ r.matched_skills ∨ s ∈ r.missing_skills) ↔ s ∈ required_skills) := by
  obtain ⟨p, hp, hreq, -, -⟩ := match_candidates_mem_spec _ _ _ r hr
  subst hreq
  rw [candidate_match_matched_skills, candidate_match_missing_skills]
  have hperm := match_skills_append_perm p.2.skills required_skills (4/5)
  have hnd' := hperm.symm.nodup hnd
  constructor
  · intro s hs hs'
    exact (List.disjoint_of_nodup_append hnd') hs hs'
  · intro s
    rw [← List.mem_append]
    exact hperm.mem_iff

/-- C1 witness: the partition property instantiated at a concrete matcher
run with one candidate and one required skill. -/
theorem claim_C1_witness :
    (["python"] : List String).Nodup
    ∧ ((∀ s ∈ (candidate_match "r1" witnessInfo ["python"] 0).matched_skills,
          s ∉ (candidate_match "r1" witnessInfo ["python"] 0).missing_skills)
      ∧ (∀ s, (s ∈ (candidate_match "r1" witnessInfo ["python"] 0).matched_skills
            ∨ s ∈ (candidate_match "r1" witnessInfo ["python"] 0).missing_skills)
          ↔ s ∈ (["python"] : List String))) :=
  ⟨by decide,
    claim_C1_matched_missing_partition [("r1", witnessInfo)] ["python"] 0 (by decide)
      (candidate_match "r1" witnessInfo ["python"] 0) (List.Mem.head _)⟩

/-- C2 counterexample: the candidate skill `"ab"` contains the required
skill `"b"` as a substring, yet `match_skills` does not place `"b"` in
`matched_skills`: the inner loop breaks on `"a"`, the first required skill
satisfying the condition, which is no longer missing. -/
theorem claim_C2_counterexample :
    skill_condition "ab" "b" (4/5) = true
    ∧ "b" ∉ (match_skills ["a", "ab"] ["a", "b"] (4/5)).1 := by
  constructor
  · decide
  · decide

/-- C2 (amended): a required skill is in `matched_skills` only if some
candidate skill satisfies the fuzzy condition (substring containment either
way, or case-insensitive similarity at least the threshold) against it, and
each required skill is matched at most as often as it is required. -/
theorem claim_C2_matched_only_if :
    (∀ (candidate_skills required_skills : List String) (r : String),
        r ∈ (match_skills candidate_skills required_skills (4/5)).1 →
        ∃ c ∈ candidate_skills, skill_condition c r (4/5) = true)
    ∧ (∀ (candidate_skills required_skills : List String) (r : String),
        (match_skills candidate_skills required_skills (4/5)).1.count r
          ≤ required_skills.count r) := by
  constructor
  · intro candidate_skills required_skills r h
    exact match_skills_matched_cond candidate_skills required_skills (4/5) r h
  · intro candidate_skills required_skills r
    have hperm := match_skills_append_perm candidate_skills required_skills (4/5)
    have hcount := hperm.count_eq r
    rw [List.count_append] at hcount
    omega

/-- C2 witness: the amended only-if direction instantiated at a concrete
matched skill. -/
theorem claim_C2_witness :
    ∃ c ∈ (["python"] : List String), skill_condition c "python" (4/5) = true :=
  claim_C2_matched_only_if.1 ["python"] ["python"] "python" (by decide)

/-- C3: every record the matcher does not reject is scored as
`0.7 * skillScore + 0.3 * experienceScore` with
`skillScore = matchedCount/requiredCount` (`1` when no skills required) and
`experienceScore = clamp((total - min)/5, 0, 1)` when `minExperience > 0`,
else exactly `1/2`; and Scenario B (required `{python, java}`, candidate
skills `{python}`, `minExperience = 0`) yields matched `{python}`, missing
`{java}` and score `1/2`. -/
theorem claim_C3_score_formula :
    (∀ (resumes_data : List (String × ResumeInfo)) (required_skills : List String)
        (min_experience : ℚ) (r : CandidateMatch),
        r ∈ match_candidates resumes_data required_skills min_experience →
        r.match_score
          = (7/10) * (if required_skills = [] then 1
              else (r.matched_skills.length : ℚ) / (required_skills.length : ℚ))
            + (3/10) * (if 0 < min_experience then
                max 0 (min 1 ((r.total_experience - min_experience) / 5))
              else 1/2))
    ∧ (match_candidates [("r1", scenarioB_info)] ["python", "java"] 0).map
        (fun r => (r.matched_skills, r.missing_skills, r.match_score))
      = [(["python"], ["java"], 1/2)] := by
  constructor
  · intro resumes_data required_skills min_experience r hr
    obtain ⟨p, hp, hreq, hexp, -⟩ := match_candidates_mem_spec _ _ _ r hr
    subst hreq
    rw [candidate_match_match_score, candidate_match_matched_skills,
      candidate_match_total_experience]
    by_cases hme : 0 < min_experience
    · rw [if_pos hme, if_pos hme]
      have hx : (0:ℚ) ≤ (p.2.total_experience_years - min_experience) / 5 := by
        have := not_lt.mp hexp
        linarith
      rw [max_eq_right (le_min (by norm_num) hx)]
      ring
    · rw [if_neg hme, if_neg hme]
      ring
  · with_unfolding_all rfl

/-- C3 witness: the score formula instantiated at the Scenario B matcher
run. -/
theorem claim_C3_witness :
    (candidate_match "r1" scenarioB_info ["python", "java"] 0).match_score
      = (7/10) * (if (["python", "java"] : List String) = [] then 1
          else (((candidate_match "r1" scenarioB_info ["python", "java"] 0).matched_skills.length : ℚ)
            / (((["python", "java"] : List String)).length : ℚ)))
        + (3/10) * (if (0:ℚ) < 0 then
            max 0 (min 1
              (((candidate_match "r1" scenarioB_info ["python", "java"] 0).total_experience - 0) / 5))
          else 1/2) :=
  claim_C3_score_formula.1 [("r1", scenarioB_info)] ["python", "java"] 0
    (candidate_match "r1" scenarioB_info ["python", "java"] 0) (List.Mem.head _)

/-- C4: for every input mapping, every required-skill list and every
nonnegative minimum experience, every matcher result's score lies in
`[0, 1]`. -/
theorem claim_C4_score_bounds
    (resumes_data : List (String × ResumeInfo)) (required_skills : List String)
    (min_experience : ℚ) (hme : 0 ≤ min_experience) (r : CandidateMatch)
    (hr : r ∈ match_candidates resumes_data required_skills min_experience) :
    0 ≤ r.match_score ∧ r.match_score ≤ 1 := by
  obtain ⟨p, hp, hreq, hexp, -⟩ := match_candidates_mem_spec _ _ _ r hr
  subst hreq
  rw [candidate_match_match_score]
  have hss : 0 ≤ (if required_skills = [] then (1:ℚ)
        else ((match_skills p.2.skills required_skills (4/5)).1.length : ℚ)
          / (required_skills.length : ℚ))
      ∧ (if required_skills = [] then (1:ℚ)
        else ((match_skills p.2.skills required_skills (4/5)).1.length : ℚ)
          / (required_skills.length : ℚ)) ≤ 1 := by
    by_cases hreq0 : required_skills = []
    · rw [if_pos hreq0]
      norm_num
    · rw [if_neg hreq0]
      have hlen : (match_skills p.2.skills required_skills (4/5)).1.length
          ≤ required_skills.length := by
        have hl := (match_skills_append_perm p.2.skills required_skills (4/5)).length_eq
        rw [List.length_append] at hl
        omega
      have hpos : (0:ℚ) < (required_skills.length : ℚ) := by
        have h0 : required_skills.length ≠ 0 :=
          fun h => hreq0 (List.length_eq_zero.mp h)
        exact_mod_cast Nat.pos_of_ne_zero h0
      constructor
      · exact div_nonneg (by positivity) (le_of_lt hpos)
      · rw [div_le_one hpos]
        exact_mod_cast hlen
  have hes : 0 ≤ (if 0 < min_experience then
        min 1 ((p.2.total_experience_years - min_experience) / 5) else 1/2)
      ∧ (if 0 < min_experience then
        min 1 ((p.2.total_experience_years - min_experience) / 5) else 1/2) ≤ 1 := by
    by_cases hme' : 0 < min_experience
    · rw [if_pos hme']
      have hx : (0:ℚ) ≤ (p.2.total_experience_years - min_experience) / 5 := by
        have := not_lt.mp hexp
        linarith
      exact ⟨le_min (by norm_num) hx, min_le_left _ _⟩
    · rw [if_neg hme']
      norm_num
  constructor
  · linarith [hss.1, hss.2, hes.1, hes.2]
  · linarith [hss.1, hss.2, hes.1, hes.2]

/-- C4 witness: the score bounds instantiated at a concrete matcher run. -/
theorem claim_C4_witness :
    0 ≤ (candidate_match "r1" witnessInfo ["python"] 0).match_score
    ∧ (candidate_match "r1" witnessInfo ["python"] 0).match_score ≤ 1 :=
  claim_C4_score_bounds [("r1", witnessInfo)] ["python"] 0 (by decide)
    (candidate_match "r1" witnessInfo ["python"] 0) (List.Mem.head _)

/-- C5: the ranker sorts by `match_score` descending (every earlier result
scores at least every later one), ties keep the original relative order
(score-level filters are unchanged), and the `rank` values are exactly
`1..N` in list-position order. -/
theorem claim_C5_ranking (candidates : List CandidateMatch)
    (required_skills : List String) :
    (rank_candidates candidates required_skills).Pairwise
        (fun a b => b.match_score ≤ a.match_score)
    ∧ (∀ q : ℚ,
        ((rank_candidates candidates required_skills).map eraseRank).filter
            (fun c => c.match_score == q)
          = (candidates.map eraseRank).filter (fun c => c.match_score == q))
    ∧ (rank_candidates candidates required_skills).map (fun c => c.rank)
        = (List.range candidates.length).map (fun k => some (k + 1)) := by
  refine ⟨?_, ?_, ?_⟩
  · have h1 : ((sortDesc candidates).map (fun c => c.match_score)).Pairwise
        (fun a b => b ≤ a) :=
      List.pairwise_map.mpr (sortDesc_pairwise candidates)
    have h2 : ((rank_candidates candidates required_skills).map
        (fun c => c.match_score)).Pairwise (fun a b => b ≤ a) := by
      rw [rank_candidates, assignRanks_map_score]
      exact h1
    exact List.pairwise_map.mp h2
  · intro q
    rw [rank_candidates, assignRanks_map_eraseRank, List.filter_map, List.filter_map]
    have hcomp : ((fun (c : CandidateMatch) => c.match_score == q) ∘ eraseRank)
        = (fun (c : CandidateMatch) => c.match_score == q) := rfl
    rw [hcomp, sortDesc_filter]
  · rw [rank_candidates, assignRanks_map_rank, (sortDesc_perm candidates).length_eq]
    apply List.map_congr_left
    intro a _
    rw [Nat.add_comm]

/-- C10: ranking is a permutation of its input once the assigned `rank`
values are forgotten — no candidate is added, dropped or duplicated, and
the `required_skills` argument never filters. -/
theorem claim_C10_rank_perm (candidates : List CandidateMatch)
    (required_skills : List String) :
    ((rank_candidates candidates required_skills).map eraseRank).Perm
      (candidates.map eraseRank) := by
  rw [rank_candidates, assignRanks_map_eraseRank]
  exact (sortDesc_perm candidates).map eraseRank

/-- C6: the matcher deduplicates by candidate key (lower-cased email if
non-empty, else lower-cased name): a later record sharing the key of an
earlier record contributes nothing to the output, and (with distinct
resume ids) no result carries the later record's id. -/
theorem claim_C6_dedup (pre mid post : List (String × ResumeInfo))
    (rid1 rid2 : String) (info1 info2 : ResumeInfo)
    (required_skills : List String) (min_experience : ℚ)
    (hkey : candidateKey info1 = candidateKey info2) :
    match_candidates (pre ++ (rid1, info1) :: (mid ++ (rid2, info2) :: post))
        required_skills min_experience
      = match_candidates (pre ++ (rid1, info1) :: (mid ++ post))
          required_skills min_experience
    ∧ (((pre ++ (rid1, info1) :: (mid ++ (rid2, info2) :: post)).map Prod.fst).Nodup →
        ∀ r ∈ match_candidates (pre ++ (rid1, info1) :: (mid ++ (rid2, info2) :: post))
            required_skills min_experience, r.resume_id ≠ rid2) := by
  have heq := matchLoop_dup_drop required_skills min_experience rid1 rid2 info1 info2
    mid post hkey pre []
  constructor
  · exact heq
  · intro hnd r hr hid
    rw [match_candidates, heq] at hr
    obtain ⟨p, hp, hreq, -, -⟩ := matchLoop_mem_spec _ _ _ _ r hr
    have hp1 : p.1 = rid2 := by
      rw [hreq, candidate_match_resume_id] at hid
      exact hid
    have hmem : rid2 ∈ (pre ++ (rid1, info1) :: (mid ++ post)).map Prod.fst := by
      rw [← hp1]
      exact List.mem_map_of_mem Prod.fst hp
    rw [List.map_append, List.map_cons, List.map_append, List.map_cons] at hnd
    rw [List.map_append, List.map_cons, List.map_append] at hmem
    rw [← List.cons_append, ← List.append_assoc] at hnd hmem
    have h1 := List.nodup_append.mp hnd
    rcases List.mem_append.mp hmem with hA | hB
    · exact h1.2.2 hA (List.mem_cons_self _ _)
    · exact (List.nodup_cons.mp h1.2.1).1 hB

/-- C6 witness: two records sharing a key; the duplicate is dropped. -/
theorem claim_C6_witness :
    match_candidates [("a", dupInfo), ("b", dupInfo)] [] 0
      = match_candidates [("a", dupInfo)] [] 0
    ∧ ((([("a", dupInfo), ("b", dupInfo)] : List (String × ResumeInfo)).map
          Prod.fst).Nodup →
        ∀ r ∈ match_candidates [("a", dupInfo), ("b", dupInfo)] [] 0,
          r.resume_id ≠ "b") :=
  claim_C6_dedup [] [] [] "a" "b" dupInfo dupInfo [] 0 rfl

/-- C7: with distinct resume ids, a record yields a result if and only if
no earlier record shares its deduplication key, its total experience is not
below the minimum, and it is not the case that skills are required while
none matched; and (Scenario C) a candidate with one year of experience is
excluded at a three-year minimum whatever the required skills. -/
theorem claim_C7_filter_iff (pre post : List (String × ResumeInfo))
    (rid : String) (info : ResumeInfo)
    (required_skills : List String) (min_experience : ℚ)
    (hnd : ((pre ++ (rid, info) :: post).map Prod.fst).Nodup) :
    ((∃ r ∈ match_candidates (pre ++ (rid, info) :: post) required_skills min_experience,
        r.resume_id = rid)
      ↔ ((∀ e ∈ pre, candidateKey e.2 ≠ candidateKey info)
        ∧ ¬(info.total_experience_years < min_experience)
        ∧ ¬((match_skills info.skills required_skills (4/5)).1.length = 0
            ∧ required_skills ≠ [])))
    ∧ (∀ required' : List String,
        match_candidates [("c1", scenarioC_info)] required' 3 = []) := by
  constructor
  · rw [List.map_append, List.map_cons] at hnd
    have h1 := List.nodup_append.mp hnd
    have hpost : rid ∉ post.map Prod.fst := (List.nodup_cons.mp h1.2.1).1
    have hpre : rid ∉ pre.map Prod.fst :=
      fun hm => h1.2.2 hm (List.mem_cons_self _ _)
    have hiff := matchLoop_id_mem_iff required_skills min_experience rid info post
      hpost pre [] hpre
    rw [match_candidates, hiff]
    constructor
    · rintro ⟨-, h⟩
      exact h
    · intro h
      exact ⟨List.not_mem_nil _, h⟩
  · intro required'
    rfl

/-- C7 witness: a sole record with ample experience and no required skills
appears in the output. -/
theorem claim_C7_witness :
    ∃ r ∈ match_candidates [("r1", witnessInfo)] [] 0, r.resume_id = "r1" :=
  ((claim_C7_filter_iff [] [] "r1" witnessInfo [] 0 (by decide)).1).mpr
    ⟨fun e he => absurd he (List.not_mem_nil e), by decide, fun h => h.2 rfl⟩

/-- C8: `calculate_total_experience` does sum the entries' `duration_years`
(and an empty list yields `0.0`), but the duration computed from a reversed
date range such as `2021 - 2019` is `-2.0`, violating the claimed
`durationYears ≥ 0` invariant; the negative value propagates to the
total. -/
theorem claim_C8_duration_negative :
    (∀ experience_list : List Experience,
        calculate_total_experience experience_list
          = (experience_list.map fun e => e.duration_years).sum)
    ∧ calculate_total_experience [] = 0
    ∧ duration_from_dates ⟨2021, 6, 15⟩ ⟨2019, 6, 15⟩ = -2
    ∧ calculate_total_experience
        [{ start_date := some ⟨2021, 6, 15⟩, end_date := some ⟨2019, 6, 15⟩,
           duration_years := duration_from_dates ⟨2021, 6, 15⟩ ⟨2019, 6, 15⟩ }] < 0 := by
  have hdur : duration_from_dates ⟨2021, 6, 15⟩ ⟨2019, 6, 15⟩ = -2 := by
    with_unfolding_all rfl
  refine ⟨?_, rfl, hdur, ?_⟩
  · intro experience_list
    cases experience_list with
    | nil => rfl
    | cons e es =>
      rw [calculate_total_experience, if_neg (List.cons_ne_nil e es)]
  · rw [calculate_total_experience, if_neg (List.cons_ne_nil _ _)]
    simp only [List.map_cons, List.map_nil, List.sum_cons, List.sum_nil]
    rw [hdur]
    norm_num

/-- C9: the Structurer returns the failure signal exactly when the text is
absent or empty or the extraction body faults; otherwise it returns the
populated record. -/
theorem claim_C9_structurer :
    (∀ extraction_body : String → Except Unit ResumeInfo,
        extract_information none extraction_body = none)
    ∧ (∀ extraction_body : String → Except Unit ResumeInfo,
        extract_information (some "") extraction_body = none)
    ∧ (∀ (extraction_body : String → Except Unit ResumeInfo) (t : String), t ≠ "" →
        (extract_information (some t) extraction_body = none
          ↔ extraction_body t = Except.error ()))
    ∧ (∀ (extraction_body : String → Except Unit ResumeInfo) (t : String)
        (info : ResumeInfo), t ≠ "" → extraction_body t = Except.ok info →
        extract_information (some t) extraction_body = some info) := by
  refine ⟨fun _ => rfl, fun extraction_body => ?_, ?_, ?_⟩
  · rw [extract_information, if_pos rfl]
  · intro extraction_body t ht
    rw [extract_information, if_neg ht]
    cases hbt : extraction_body t with
    | error e =>
      cases e
      simp
    | ok info =>
      simp
  · intro extraction_body t info ht hok
    rw [extract_information, if_neg ht, hok]

/-- C9 witness: the Structurer instantiated with a concrete non-empty text
and concrete extraction outcomes. -/
theorem claim_C9_witness :
    extract_information (some "resume text") (fun _ => Except.ok witnessInfo)
      = some witnessInfo
    ∧ (extract_information (some "resume text")
          (fun _ => (Except.error () : Except Unit ResumeInfo)) = none
        ↔ (fun _ => (Except.error () : Except Unit ResumeInfo)) "resume text"
          = Except.error ()) :=
  ⟨claim_C9_structurer.2.2.2 (fun _ => Except.ok witnessInfo) "resume text" witnessInfo
      (by decide) rfl,
    claim_C9_structurer.2.2.1 (fun _ => Except.error ()) "resume text" (by decide)⟩
